import Mathlib

/-!
Shallow embedding of the SquiggleSync ordering core and presence store.

Backend (squigglesync-backend/src):
* `SequenceManagerService` — per-room monotone counters
  (services/sequence-manager.service.ts).
* `EventStoreService` — per-room sorted event log with binary-search
  insertion (services/event-store.service.ts).
* `getRoomEventsHandler` — the GET /:roomId read handler of the
  event-store router (events-store.router.ts).

Frontend (squigglesync-frontend/src/app/core/store):
* `PresenceStore` — active users and cursor positions (presence.store.ts).

TypeScript `Map<string, V>` is embedded as `String → Option V`
(`m.get(k) || dflt` becomes `(m k).getD dflt`, `m.delete(k)` sets the key
to `none`).  `Date.now()` is passed in as an explicit `now : Nat`
parameter.  The optional `sequence?: number` field is `Option Nat`.
-/

/-- Variant-specific payload of the tagged union `WhiteboardEvent`
(types/events.ts); the constructor plays the role of the `type`
discriminant. -/
inductive EventPayload where
  | drawLine (points : List (Int × Int)) (color : String) (strokeWidth : Nat)
  | drawPath (path : List (Int × Int)) (color : String) (strokeWidth : Nat)
  | erase (x y width height : Int)
  | clearCanvas
  | joinRoom
  | leaveRoom
  deriving Repr, DecidableEq, Inhabited

/-- `WhiteboardEvent` of types/events.ts: common fields plus the
variant payload.  `sequence` is optional (absent before admission). -/
structure WhiteboardEvent where
  payload : EventPayload
  userId : String
  roomId : String
  timestamp : Nat
  sequence : Option Nat
  deriving Repr, DecidableEq, Inhabited

/-- `event.sequence || 0` as used by `insertEvent`: an absent (or zero)
sequence reads as `0`. -/
def seqOrZero (e : WhiteboardEvent) : Nat :=
  e.sequence.getD 0

/-- `SequenceManagerService` (sequence-manager.service.ts): one counter
per room, stored in a map with absent keys meaning "never issued". -/
structure SequenceManagerService where
  sequences : String → Option Nat

/-- A freshly constructed `SequenceManagerService` (empty map). -/
def SequenceManagerService.empty : SequenceManagerService :=
  ⟨fun _ => none⟩

/-- `getNextSequence(roomId)`: read the current counter (`|| 0`),
increment, store, and return the new value together with the updated
service state. -/
def SequenceManagerService.getNextSequence (s : SequenceManagerService)
    (roomId : String) : Nat × SequenceManagerService :=
  let current := (s.sequences roomId).getD 0
  let next := current + 1
  (next, ⟨fun r => if r = roomId then some next else s.sequences r⟩)

/-- `getCurrentSequence(roomId)`: the last issued value, `0` if none. -/
def SequenceManagerService.getCurrentSequence (s : SequenceManagerService)
    (roomId : String) : Nat :=
  (s.sequences roomId).getD 0

/-- `resetSequence(roomId)`: delete the room's counter. -/
def SequenceManagerService.resetSequence (s : SequenceManagerService)
    (roomId : String) : SequenceManagerService :=
  ⟨fun r => if r = roomId then none else s.sequences r⟩

/-- The binary-search loop of `EventStoreService.insertEvent`
(event-store.service.ts): find the leftmost index in `[left, right)` at
which `event` (with key `eventSeq`) can be inserted, comparing against
`roomEvents[mid].sequence || 0`. -/
def insertPos (roomEvents : List WhiteboardEvent) (eventSeq : Nat)
    (left right : Nat) : Nat :=
  if _h : left < right then
    if seqOrZero (roomEvents.getD ((left + right) / 2) default) < eventSeq then
      insertPos roomEvents eventSeq ((left + right) / 2 + 1) right
    else
      insertPos roomEvents eventSeq left ((left + right) / 2)
  else
    left
termination_by right - left
decreasing_by
  all_goals omega

/-- `EventStoreService.insertEvent`: splice the event into the room's
array at the position found by binary search on `sequence || 0`. -/
def insertEvent (roomEvents : List WhiteboardEvent) (event : WhiteboardEvent) :
    List WhiteboardEvent :=
  let left := insertPos roomEvents (seqOrZero event) 0 roomEvents.length
  roomEvents.take left ++ event :: roomEvents.drop left

/-- `EventStoreService` (event-store.service.ts): per-room event arrays
plus the injected `SequenceManagerService`. -/
structure EventStoreService where
  events : String → Option (List WhiteboardEvent)
  sequenceManager : SequenceManagerService

/-- A freshly constructed `EventStoreService` with a fresh sequence
manager. -/
def EventStoreService.empty : EventStoreService :=
  ⟨fun _ => none, SequenceManagerService.empty⟩

/-- `addEvent(roomId, event)`: obtain the next sequence number, stamp the
event with it and with the current time, and insert it into the room's
array (created empty if absent).  Returns the enriched event and the
updated store. -/
def EventStoreService.addEvent (s : EventStoreService) (roomId : String)
    (event : WhiteboardEvent) (now : Nat) : WhiteboardEvent × EventStoreService :=
  let res := s.sequenceManager.getNextSequence roomId
  let enrichedEvent : WhiteboardEvent :=
    { event with sequence := some res.1, timestamp := now }
  let roomEvents := (s.events roomId).getD []
  (enrichedEvent,
    { events := fun r =>
        if r = roomId then some (insertEvent roomEvents enrichedEvent)
        else s.events r,
      sequenceManager := res.2 })

/-- `getEvents(roomId)`: the room's array, `[]` if absent. -/
def EventStoreService.getEvents (s : EventStoreService) (roomId : String) :
    List WhiteboardEvent :=
  (s.events roomId).getD []

/-- The filter predicate of `getEventsAfter`:
`event.sequence && event.sequence > afterSequence` (the first conjunct is
JavaScript truthiness: an absent or zero sequence fails it). -/
def eventAfterFilter (afterSequence : Int) (event : WhiteboardEvent) : Bool :=
  match event.sequence with
  | some n => n != 0 && (n : Int) > afterSequence
  | none => false

/-- `getEventsAfter(roomId, afterSequence)`: filter the room's array. -/
def EventStoreService.getEventsAfter (s : EventStoreService) (roomId : String)
    (afterSequence : Int) : List WhiteboardEvent :=
  ((s.events roomId).getD []).filter (eventAfterFilter afterSequence)

/-- `clearRoomEvents(roomId)`: delete the room's array and reset its
sequence counter. -/
def EventStoreService.clearRoomEvents (s : EventStoreService) (roomId : String) :
    EventStoreService :=
  { events := fun r => if r = roomId then none else s.events r,
    sequenceManager := s.sequenceManager.resetSequence roomId }

/-- The JSON body produced by the GET /:roomId handler of the
event-store router. -/
structure RoomEventsResponse where
  roomId : String
  events : List WhiteboardEvent
  count : Nat
  lastSequence : Nat
  deriving Repr, DecidableEq

/-- The GET /:roomId handler (events-store.router.ts): pick
`getEventsAfter` when a (truthy, numeric) `after` query parameter is
present, otherwise `getEvents`; reply with the array, its length, and
`events[events.length - 1]?.sequence || 0`. -/
def getRoomEventsHandler (s : EventStoreService) (roomId : String)
    (after : Option Int) : RoomEventsResponse :=
  let events :=
    match after with
    | some k => s.getEventsAfter roomId k
    | none => s.getEvents roomId
  { roomId := roomId
    events := events
    count := events.length
    lastSequence := ((events.getLast?).bind (fun e => e.sequence)).getD 0 }

/-- A state-changing call on the sequence manager: `getNextSequence` or
`resetSequence`, for some room. -/
inductive SeqOp where
  | next (roomId : String)
  | reset (roomId : String)
  deriving Repr, DecidableEq

/-- Run a list of sequence-manager calls, head first. -/
def runSeqOps (s : SequenceManagerService) : List SeqOp → SequenceManagerService
  | [] => s
  | SeqOp.next roomId :: rest => runSeqOps (s.getNextSequence roomId).2 rest
  | SeqOp.reset roomId :: rest => runSeqOps (s.resetSequence roomId) rest

/-- How one sequence-manager call changes the counter of `roomId`:
`getNextSequence` on this room increments it, `resetSequence` on this
room zeroes it, calls on other rooms leave it alone. -/
def seqOpStep (roomId : String) (n : Nat) : SeqOp → Nat
  | SeqOp.next r => if r = roomId then n + 1 else n
  | SeqOp.reset r => if r = roomId then 0 else n

/-- Number of `getNextSequence` calls for `roomId` since the last
`resetSequence` for `roomId` (or since the start, if never reset). -/
def callsSinceReset (roomId : String) (ops : List SeqOp) : Nat :=
  ops.foldl (seqOpStep roomId) 0

/-- A state-changing call on the event store: `addEvent` or
`clearRoomEvents`. -/
inductive StoreOp where
  | add (roomId : String) (event : WhiteboardEvent) (now : Nat)
  | clear (roomId : String)
  deriving Repr, DecidableEq

/-- Run a list of event-store calls, head first. -/
def runStoreOps (s : EventStoreService) : List StoreOp → EventStoreService
  | [] => s
  | StoreOp.add roomId event now :: rest =>
      runStoreOps (s.addEvent roomId event now).2 rest
  | StoreOp.clear roomId :: rest =>
      runStoreOps (s.clearRoomEvents roomId) rest

/-- How one event-store call changes the counter of `roomId`. -/
def storeOpStep (roomId : String) (n : Nat) : StoreOp → Nat
  | StoreOp.add r _ _ => if r = roomId then n + 1 else n
  | StoreOp.clear r => if r = roomId then 0 else n

/-- Number of `addEvent` calls for `roomId` since the last
`clearRoomEvents` for `roomId` (or since the start, if never cleared). -/
def addsSinceClear (roomId : String) (ops : List StoreOp) : Nat :=
  ops.foldl (storeOpStep roomId) 0

/-- Whether an event-store call is an `addEvent` for `roomId`. -/
def StoreOp.isAddFor (roomId : String) : StoreOp → Bool
  | StoreOp.add r _ _ => r == roomId
  | StoreOp.clear _ => false

/-- `UserPresence` (presence.store.ts). -/
structure UserPresence where
  userId : String
  userName : String
  color : String
  joinedAt : Nat
  deriving Repr, DecidableEq

/-- `CursorPosition` (presence.store.ts). -/
structure CursorPosition where
  x : Int
  y : Int
  lastUpdate : Nat
  deriving Repr, DecidableEq

/-- `PresenceStore` state (presence.store.ts): the two signal-held maps,
keyed by user id. -/
structure PresenceStore where
  activeUsers : String → Option UserPresence
  userCursors : String → Option CursorPosition

/-- A freshly constructed `PresenceStore` (both maps empty). -/
def PresenceStore.empty : PresenceStore :=
  ⟨fun _ => none, fun _ => none⟩

/-- The `USER_COLORS` palette of `PresenceStore`. -/
def USER_COLORS : List String :=
  ["#3B82F6", "#10B981", "#F59E0B", "#EF4444", "#8B5CF6", "#EC4899",
   "#06B6D4", "#84CC16", "#F97316", "#6366F1", "#14B8A6", "#A855F7"]

/-- JavaScript `ToInt32`: wrap an integer into `[-2^31, 2^31)`. -/
def toInt32 (n : Int) : Int :=
  (n + 2 ^ 31) % 2 ^ 32 - 2 ^ 31

/-- `PresenceStore.getUserColor`: hash the user id
(`hash = charCode + ((hash << 5) - hash)` per character, where `<<`
works on 32-bit integers) and index the palette by `|hash| % length`. -/
def getUserColor (userId : String) : String :=
  let hash := userId.data.foldl
    (fun hash c => (c.toNat : Int) + (toInt32 (toInt32 hash * 32) - hash)) 0
  USER_COLORS.getD (hash.natAbs % USER_COLORS.length) ""

/-- `PresenceStore.addUser`: early-return if the user is already active;
otherwise insert a presence entry with the given color (truthy, else
`getUserColor`) and join time.  Cursors are untouched. -/
def PresenceStore.addUser (s : PresenceStore) (userId userName : String)
    (color : Option String) (now : Nat) : PresenceStore :=
  match s.activeUsers userId with
  | some _ => s
  | none =>
    let userColor :=
      match color with
      | some c => if c = "" then getUserColor userId else c
      | none => getUserColor userId
    { s with activeUsers := fun u =>
        if u = userId then some ⟨userId, userName, userColor, now⟩
        else s.activeUsers u }

/-- `PresenceStore.removeUser`: delete the user from both maps. -/
def PresenceStore.removeUser (s : PresenceStore) (userId : String) :
    PresenceStore :=
  { activeUsers := fun u => if u = userId then none else s.activeUsers u,
    userCursors := fun u => if u = userId then none else s.userCursors u }

/-- `PresenceStore.updateCursor`: early-return if the user is not
active; otherwise write the cursor entry. -/
def PresenceStore.updateCursor (s : PresenceStore) (userId : String)
    (x y : Int) (now : Nat) : PresenceStore :=
  match s.activeUsers userId with
  | none => s
  | some _ =>
    { s with userCursors := fun u =>
        if u = userId then some ⟨x, y, now⟩ else s.userCursors u }

/-- `PresenceStore.clearAll`: replace both maps by empty ones. -/
def PresenceStore.clearAll (_s : PresenceStore) : PresenceStore :=
  PresenceStore.empty

/-- A state-changing call on the presence store. -/
inductive PresenceOp where
  | addUser (userId userName : String) (color : Option String) (now : Nat)
  | removeUser (userId : String)
  | updateCursor (userId : String) (x y : Int) (now : Nat)
  | clearAll
  deriving Repr, DecidableEq

/-- Run a list of presence-store calls, head first. -/
def runPresenceOps (s : PresenceStore) : List PresenceOp → PresenceStore
  | [] => s
  | PresenceOp.addUser userId userName color now :: rest =>
      runPresenceOps (s.addUser userId userName color now) rest
  | PresenceOp.removeUser userId :: rest =>
      runPresenceOps (s.removeUser userId) rest
  | PresenceOp.updateCursor userId x y now :: rest =>
      runPresenceOps (s.updateCursor userId x y now) rest
  | PresenceOp.clearAll :: rest =>
      runPresenceOps (s.clearAll) rest

/-- A concrete event used to instantiate universally quantified
theorems at a specific input. -/
def sampleEvent : WhiteboardEvent :=
  { payload := EventPayload.clearCanvas
    userId := "user-1"
    roomId := "room-1"
    timestamp := 0
    sequence := none }

/-- The room log order maintained by the store: ascending (weakly, in
general) in `sequence || 0`. -/
def logSorted (l : List WhiteboardEvent) : Prop :=
  List.Pairwise (fun a b => seqOrZero a ≤ seqOrZero b) l

/-- The reachable-state invariant of the event store: for every room,
the stored sequence stamps read `some 1, some 2, …, some c` where `c` is
that room's counter in the sequence manager. -/
def storeInv (s : EventStoreService) : Prop :=
  ∀ roomId, (s.getEvents roomId).map (fun e => e.sequence)
    = (List.range' 1 (s.sequenceManager.getCurrentSequence roomId)).map some

/-- The suffix filter described by the spec: the events whose (present)
sequence stamp is strictly greater than `k`.  Spec-side definition, to
be compared with the code's `eventAfterFilter`. -/
def specAfterFilter (k : Int) (e : WhiteboardEvent) : Bool :=
  match e.sequence with
  | some n => (n : Int) > k
  | none => false

/-- The implicit containment invariant of the presence store: every
user with a cursor entry is active. -/
def presenceInv (s : PresenceStore) : Prop :=
  ∀ u, (s.userCursors u).isSome = true → (s.activeUsers u).isSome = true

/-- Running sequence-manager calls folds `seqOpStep` over the counter of
any fixed room. -/
theorem seqCounter_runSeqOps (ops : List SeqOp) :
    ∀ (s : SequenceManagerService) (roomId : String),
      (runSeqOps s ops).getCurrentSequence roomId
        = ops.foldl (seqOpStep roomId) (s.getCurrentSequence roomId) := by
  induction ops with
  | nil => intro s roomId; rfl
  | cons op rest ih =>
    intro s roomId
    cases op with
    | next r =>
      rw [runSeqOps, List.foldl_cons, ih]
      by_cases h : r = roomId
      · subst h
        simp [SequenceManagerService.getNextSequence,
          SequenceManagerService.getCurrentSequence, seqOpStep]
      · have h2 : ¬roomId = r := fun hc => h hc.symm
        simp [SequenceManagerService.getNextSequence,
          SequenceManagerService.getCurrentSequence, seqOpStep, h, h2]
    | reset r =>
      rw [runSeqOps, List.foldl_cons, ih]
      by_cases h : r = roomId
      · subst h
        simp [SequenceManagerService.resetSequence,
          SequenceManagerService.getCurrentSequence, seqOpStep]
      · have h2 : ¬roomId = r := fun hc => h hc.symm
        simp [SequenceManagerService.resetSequence,
          SequenceManagerService.getCurrentSequence, seqOpStep, h, h2]

/-- Running event-store calls folds `storeOpStep` over the sequence
counter of any fixed room. -/
theorem storeCounter_runStoreOps (ops : List StoreOp) :
    ∀ (s : EventStoreService) (roomId : String),
      (runStoreOps s ops).sequenceManager.getCurrentSequence roomId
        = ops.foldl (storeOpStep roomId)
            (s.sequenceManager.getCurrentSequence roomId) := by
  induction ops with
  | nil => intro s roomId; rfl
  | cons op rest ih =>
    intro s roomId
    cases op with
    | add r event now =>
      rw [runStoreOps, List.foldl_cons, ih]
      by_cases h : r = roomId
      · subst h
        simp [EventStoreService.addEvent, SequenceManagerService.getNextSequence,
          SequenceManagerService.getCurrentSequence, storeOpStep]
      · have h2 : ¬roomId = r := fun hc => h hc.symm
        simp [EventStoreService.addEvent, SequenceManagerService.getNextSequence,
          SequenceManagerService.getCurrentSequence, storeOpStep, h, h2]
    | clear r =>
      rw [runStoreOps, List.foldl_cons, ih]
      by_cases h : r = roomId
      · subst h
        simp [EventStoreService.clearRoomEvents,
          SequenceManagerService.resetSequence,
          SequenceManagerService.getCurrentSequence, storeOpStep]
      · have h2 : ¬roomId = r := fun hc => h hc.symm
        simp [EventStoreService.clearRoomEvents,
          SequenceManagerService.resetSequence,
          SequenceManagerService.getCurrentSequence, storeOpStep, h, h2]

/-- Unfolding equation for the binary-search loop. -/
theorem insertPos_eq (l : List WhiteboardEvent) (x left right : Nat) :
    insertPos l x left right =
      if left < right then
        if seqOrZero (l.getD ((left + right) / 2) default) < x then
          insertPos l x ((left + right) / 2 + 1) right
        else
          insertPos l x left ((left + right) / 2)
      else left := by
  rw [insertPos.eq_def]
  by_cases h : left < right
  · rw [dif_pos h, if_pos h]
  · rw [dif_neg h, if_neg h]

/-- A sorted log is monotone in its positional reads. -/
theorem logSorted_getD {l : List WhiteboardEvent} (h : logSorted l) :
    ∀ i j : Nat, i ≤ j → j < l.length →
      seqOrZero (l.getD i default) ≤ seqOrZero (l.getD j default) := by
  intro i j hij hj
  have hi : i < l.length := Nat.lt_of_le_of_lt hij hj
  rw [List.getD_eq_getElem l default hi, List.getD_eq_getElem l default hj]
  rcases Nat.lt_or_eq_of_le hij with hlt | heq
  · exact List.pairwise_iff_getElem.mp h i j hi hj hlt
  · subst heq; exact le_refl _

/-- Correctness of the binary-search loop on a sorted log: starting from
any window `[left, right]` whose outside already satisfies the
lower-bound split, the returned index `r` lies in the window, every
position below `r` holds a key `< x`, and every position from `r` on
holds a key `≥ x`. -/
theorem insertPos_spec (l : List WhiteboardEvent) (x : Nat)
    (hsort : ∀ i j : Nat, i ≤ j → j < l.length →
      seqOrZero (l.getD i default) ≤ seqOrZero (l.getD j default)) :
    ∀ fuel left right, right - left ≤ fuel → left ≤ right → right ≤ l.length →
      (∀ i, i < left → seqOrZero (l.getD i default) < x) →
      (∀ i, right ≤ i → i < l.length → x ≤ seqOrZero (l.getD i default)) →
      left ≤ insertPos l x left right ∧ insertPos l x left right ≤ right ∧
        (∀ i, i < insertPos l x left right → seqOrZero (l.getD i default) < x) ∧
        (∀ i, insertPos l x left right ≤ i → i < l.length →
          x ≤ seqOrZero (l.getD i default)) := by
  intro fuel
  induction fuel with
  | zero =>
    intro left right hfuel hlr _hrlen hlo hhi
    have heq : left = right := by omega
    subst heq
    rw [insertPos_eq, if_neg (lt_irrefl left)]
    exact ⟨le_refl _, le_refl _, hlo, fun i hi hil => hhi i hi hil⟩
  | succ n ih =>
    intro left right hfuel hlr hrlen hlo hhi
    by_cases hlt : left < right
    · have hmid1 : left ≤ (left + right) / 2 := by omega
      have hmid2 : (left + right) / 2 < right := by omega
      rw [insertPos_eq, if_pos hlt]
      by_cases hkey : seqOrZero (l.getD ((left + right) / 2) default) < x
      · rw [if_pos hkey]
        have hlo2 : ∀ i, i < (left + right) / 2 + 1 →
            seqOrZero (l.getD i default) < x := by
          intro i hi
          exact Nat.lt_of_le_of_lt (hsort i ((left + right) / 2) (by omega) (by omega)) hkey
        obtain ⟨h1, h2, h3, h4⟩ :=
          ih ((left + right) / 2 + 1) right (by omega) (by omega) hrlen hlo2 hhi
        exact ⟨by omega, h2, h3, h4⟩
      · rw [if_neg hkey]
        have hhi2 : ∀ i, (left + right) / 2 ≤ i → i < l.length →
            x ≤ seqOrZero (l.getD i default) := by
          intro i hmi hil
          exact le_trans (Nat.le_of_not_lt hkey) (hsort ((left + right) / 2) i hmi hil)
        obtain ⟨h1, h2, h3, h4⟩ :=
          ih left ((left + right) / 2) (by omega) (by omega) (by omega) hlo hhi2
        exact ⟨h1, by omega, h3, h4⟩
    · rw [insertPos_eq, if_neg hlt]
      exact ⟨le_refl _, hlr, hlo, fun i hi hil => hhi i (by omega) hil⟩

/-- Specialisation of `insertPos_spec` to the full call made by
`insertEvent`. -/
theorem insertPos_main (l : List WhiteboardEvent) (x : Nat)
    (hsort : ∀ i j : Nat, i ≤ j → j < l.length →
      seqOrZero (l.getD i default) ≤ seqOrZero (l.getD j default)) :
    insertPos l x 0 l.length ≤ l.length ∧
      (∀ i, i < insertPos l x 0 l.length → seqOrZero (l.getD i default) < x) ∧
      (∀ i, insertPos l x 0 l.length ≤ i → i < l.length →
        x ≤ seqOrZero (l.getD i default)) := by
  obtain ⟨-, h2, h3, h4⟩ :=
    insertPos_spec l x hsort l.length 0 l.length (by omega) (by omega) (le_refl _)
      (fun i hi => absurd hi (Nat.not_lt_zero i))
      (fun i hi hil => absurd hil (by omega))
  exact ⟨h2, h3, h4⟩

/-- Binary-search insertion keeps the log sorted. -/
theorem insertEvent_logSorted (l : List WhiteboardEvent) (e : WhiteboardEvent)
    (h : logSorted l) : logSorted (insertEvent l e) := by
  obtain ⟨hle, hlt, hge⟩ := insertPos_main l (seqOrZero e) (logSorted_getD h)
  show List.Pairwise _
    (l.take (insertPos l (seqOrZero e) 0 l.length)
      ++ e :: l.drop (insertPos l (seqOrZero e) 0 l.length))
  set r := insertPos l (seqOrZero e) 0 l.length with hr
  rw [List.pairwise_append]
  refine ⟨h.take, ?_, ?_⟩
  · rw [List.pairwise_cons]
    refine ⟨?_, h.drop⟩
    intro b hb
    obtain ⟨j, hj, rfl⟩ := List.mem_iff_getElem.mp hb
    have hlen : r + j < l.length := by
      have := List.length_drop r l
      omega
    rw [List.getElem_drop, ← List.getD_eq_getElem l default hlen]
    exact hge (r + j) (by omega) hlen
  · intro a ha b hb
    obtain ⟨i, hi, rfl⟩ := List.mem_iff_getElem.mp ha
    have hir : i < r := by
      have := List.length_take r l
      omega
    have hilen : i < l.length := by
      have := List.length_take r l
      omega
    have hax : seqOrZero (l.take r)[i] < seqOrZero e := by
      rw [List.getElem_take, ← List.getD_eq_getElem l default hilen]
      exact hlt i hir
    rcases List.mem_cons.mp hb with rfl | hb2
    · exact le_of_lt hax
    · obtain ⟨j, hj, rfl⟩ := List.mem_iff_getElem.mp hb2
      have hlen : r + j < l.length := by
        have := List.length_drop r l
        omega
      rw [List.getElem_drop, ← List.getD_eq_getElem l default hlen]
      exact le_trans (le_of_lt hax) (hge (r + j) (by omega) hlen)

/-- When every stored key is strictly below the new key, binary-search
insertion appends at the tail. -/
theorem insertEvent_eq_append (l : List WhiteboardEvent) (e : WhiteboardEvent)
    (h : logSorted l)
    (hall : ∀ i, i < l.length → seqOrZero (l.getD i default) < seqOrZero e) :
    insertEvent l e = l ++ [e] := by
  obtain ⟨hle, hlt, hge⟩ := insertPos_main l (seqOrZero e) (logSorted_getD h)
  have hr : insertPos l (seqOrZero e) 0 l.length = l.length := by
    by_contra hne
    have hrlt : insertPos l (seqOrZero e) 0 l.length < l.length :=
      Nat.lt_of_le_of_ne hle hne
    exact absurd (hge _ (le_refl _) hrlt) (Nat.not_le_of_lt (hall _ hrlt))
  show l.take _ ++ e :: l.drop _ = l ++ [e]
  rw [hr, List.take_length, List.drop_length]

/-- C1: Monotonic sequencing — after any history of `getNextSequence`
and `resetSequence` calls starting from a fresh manager, the next
`getNextSequence(roomId)` returns one more than the number of
`getNextSequence(roomId)` calls since the last `resetSequence(roomId)`:
the n-th call for a room (from fresh state or after a reset) returns
exactly n, so returns are strictly increasing from 1 with no gaps,
regardless of interleaving with other rooms. -/
theorem getNextSequence_returns_call_count (ops : List SeqOp) (roomId : String) :
    ((runSeqOps SequenceManagerService.empty ops).getNextSequence roomId).1
      = callsSinceReset roomId ops + 1 := by
  have h := seqCounter_runSeqOps ops SequenceManagerService.empty roomId
  simp only [SequenceManagerService.getNextSequence]
  show (runSeqOps SequenceManagerService.empty ops).getCurrentSequence roomId + 1 = _
  rw [h]
  rfl

/-- Under the invariant shape, the keys used for ordering are exactly
`1, …, c`. -/
theorem seqOrZero_map_of_inv {l : List WhiteboardEvent} {c : Nat}
    (h : l.map (fun e => e.sequence) = (List.range' 1 c).map some) :
    l.map seqOrZero = List.range' 1 c := by
  have h2 : l.map seqOrZero
      = (l.map (fun e => e.sequence)).map (fun o => o.getD 0) := by
    rw [List.map_map]; rfl
  rw [h2, h, List.map_map]
  have h3 : ((fun o : Option Nat => o.getD 0) ∘ some) = id := by
    funext n; rfl
  rw [h3, List.map_id]

/-- Under the invariant shape, the log is strictly ascending in its
ordering key. -/
theorem pairwise_lt_of_inv {l : List WhiteboardEvent} {c : Nat}
    (h : l.map (fun e => e.sequence) = (List.range' 1 c).map some) :
    List.Pairwise (fun a b => seqOrZero a < seqOrZero b) l := by
  have hpl : (l.map seqOrZero).Pairwise (· < ·) := by
    rw [seqOrZero_map_of_inv h]
    exact List.pairwise_lt_range' 1 c
  exact List.pairwise_map.mp hpl

/-- Under the invariant shape, the log is (weakly) sorted. -/
theorem logSorted_of_inv {l : List WhiteboardEvent} {c : Nat}
    (h : l.map (fun e => e.sequence) = (List.range' 1 c).map some) :
    logSorted l :=
  (pairwise_lt_of_inv h).imp le_of_lt

/-- Under the invariant shape, every stored key is at most `c`. -/
theorem seq_le_of_inv {l : List WhiteboardEvent} {c : Nat}
    (h : l.map (fun e => e.sequence) = (List.range' 1 c).map some) :
    ∀ i, i < l.length → seqOrZero (l.getD i default) ≤ c := by
  intro i hi
  have hmem : seqOrZero (l.getD i default) ∈ l.map seqOrZero := by
    rw [List.getD_eq_getElem l default hi]
    exact List.mem_map_of_mem seqOrZero (List.getElem_mem hi)
  rw [seqOrZero_map_of_inv h] at hmem
  obtain ⟨j, hj, hval⟩ := List.mem_range'.mp hmem
  omega

/-- Under the invariant shape, every stored event carries a stamp
`some n` with `1 ≤ n ≤ c`. -/
theorem mem_seq_of_inv {l : List WhiteboardEvent} {c : Nat}
    (h : l.map (fun e => e.sequence) = (List.range' 1 c).map some) :
    ∀ e ∈ l, ∃ n, e.sequence = some n ∧ 1 ≤ n ∧ n ≤ c := by
  intro e he
  have hmem : e.sequence ∈ l.map (fun e => e.sequence) :=
    List.mem_map_of_mem (fun e => e.sequence) he
  rw [h] at hmem
  obtain ⟨m, hm, hval⟩ := List.mem_map.mp hmem
  obtain ⟨j, hj, hjval⟩ := List.mem_range'.mp hm
  exact ⟨m, hval.symm, by omega, by omega⟩

/-- The fresh store satisfies the invariant. -/
theorem storeInv_empty : storeInv EventStoreService.empty := by
  intro roomId
  rfl

/-- `addEvent` preserves the invariant: the new event is stamped `c + 1`,
which exceeds every stored key, so the binary search appends it at the
tail and the stamps become `1, …, c + 1`. -/
theorem storeInv_addEvent (s : EventStoreService) (roomId : String)
    (event : WhiteboardEvent) (now : Nat) (h : storeInv s) :
    storeInv (s.addEvent roomId event now).2 := by
  intro room
  by_cases hr : room = roomId
  · subst hr
    have hroom := h room
    simp only [EventStoreService.getEvents,
      SequenceManagerService.getCurrentSequence] at hroom
    simp only [EventStoreService.addEvent, EventStoreService.getEvents,
      SequenceManagerService.getNextSequence,
      SequenceManagerService.getCurrentSequence, eq_self_iff_true, if_true,
      Option.getD_some]
    rw [insertEvent_eq_append _ _ (logSorted_of_inv hroom)]
    · rw [List.map_append, hroom]
      have hconcat : List.range' 1 ((s.sequenceManager.sequences room).getD 0 + 1)
          = List.range' 1 ((s.sequenceManager.sequences room).getD 0)
            ++ [1 + 1 * (s.sequenceManager.sequences room).getD 0] := by
        exact List.range'_concat 1 ((s.sequenceManager.sequences room).getD 0)
      rw [hconcat, List.map_append]
      simp [Nat.add_comm]
    · intro i hi
      have := seq_le_of_inv hroom i hi
      have hkey : seqOrZero { event with
          sequence := some ((s.sequenceManager.sequences room).getD 0 + 1),
          timestamp := now } = (s.sequenceManager.sequences room).getD 0 + 1 := rfl
      omega
  · have hroom := h room
    simp only [EventStoreService.getEvents,
      SequenceManagerService.getCurrentSequence] at hroom
    have h2 : ¬roomId = room := fun hc => hr hc.symm
    simp only [EventStoreService.addEvent, EventStoreService.getEvents,
      SequenceManagerService.getNextSequence,
      SequenceManagerService.getCurrentSequence, if_neg hr, if_neg h2]
    exact hroom

/-- `clearRoomEvents` preserves the invariant. -/
theorem storeInv_clearRoomEvents (s : EventStoreService) (roomId : String)
    (h : storeInv s) : storeInv (s.clearRoomEvents roomId) := by
  intro room
  by_cases hr : room = roomId
  · subst hr
    simp [EventStoreService.clearRoomEvents, EventStoreService.getEvents,
      SequenceManagerService.resetSequence,
      SequenceManagerService.getCurrentSequence]
  · have hroom := h room
    simp only [EventStoreService.getEvents,
      SequenceManagerService.getCurrentSequence] at hroom
    have h2 : ¬room = roomId := hr
    simp only [EventStoreService.clearRoomEvents, EventStoreService.getEvents,
      SequenceManagerService.resetSequence,
      SequenceManagerService.getCurrentSequence, if_neg h2]
    exact hroom

/-- Any trace of `addEvent` / `clearRoomEvents` calls preserves the
invariant. -/
theorem storeInv_runStoreOps (ops : List StoreOp) :
    ∀ s : EventStoreService, storeInv s → storeInv (runStoreOps s ops) := by
  induction ops with
  | nil => intro s h; exact h
  | cons op rest ih =>
    intro s h
    cases op with
    | add roomId event now =>
      exact ih _ (storeInv_addEvent s roomId event now h)
    | clear roomId =>
      exact ih _ (storeInv_clearRoomEvents s roomId h)

/-- C2: Sorted invariant — binary-search insertion (`insertEvent`)
keeps a sorted log sorted whatever pre-assigned sequence value the
inserted event carries, and after any trace of `addEvent` /
`clearRoomEvents` calls (events arriving in any order, for any rooms)
from a fresh store, `getEvents(roomId)` returns the stored events in
(strictly) ascending order of their sequence key. -/
theorem getEvents_sorted_after_any_trace :
    (∀ (l : List WhiteboardEvent) (e : WhiteboardEvent),
        logSorted l → logSorted (insertEvent l e)) ∧
      ∀ (ops : List StoreOp) (roomId : String),
        List.Pairwise (fun a b => seqOrZero a < seqOrZero b)
          ((runStoreOps EventStoreService.empty ops).getEvents roomId) := by
  constructor
  · exact insertEvent_logSorted
  · intro ops roomId
    exact pairwise_lt_of_inv
      (storeInv_runStoreOps ops EventStoreService.empty storeInv_empty roomId)

/-- Witness: the sorted-insertion half of the sorted-invariant theorem,
applied to a concrete one-element log. -/
theorem getEvents_sorted_after_any_trace_witness :
    logSorted (insertEvent [sampleEvent] sampleEvent) :=
  getEvents_sorted_after_any_trace.1 [sampleEvent] sampleEvent
    (List.pairwise_singleton _ _)

/-- C4: No reuse, no skips, caller cannot set `sequence` — after any
trace of calls from a fresh store, the log of a room holds exactly one
event per sequence value `1, 2, …, n` in order, where `n` is the number
of `addEvent` calls for that room since the last `clearRoomEvents` for
it (or since the fresh state), regardless of any `sequence` value
already present on the input events. -/
theorem getEvents_sequences_exactly_one_to_n (ops : List StoreOp)
    (roomId : String) :
    ((runStoreOps EventStoreService.empty ops).getEvents roomId).map
        (fun e => e.sequence)
      = (List.range' 1 (addsSinceClear roomId ops)).map some := by
  rw [storeInv_runStoreOps ops EventStoreService.empty storeInv_empty roomId,
    storeCounter_runStoreOps ops EventStoreService.empty roomId]
  rfl

/-- C3: Incremental catch-up — on any store reachable by a trace of
calls, `getEventsAfter(roomId, k)` is exactly the subsequence of
`getEvents(roomId)` with sequence `> k` (in the same order), and
`getEventsAfter(roomId, 0)` equals `getEvents(roomId)`. -/
theorem getEventsAfter_eq_filter_getEvents (ops : List StoreOp)
    (roomId : String) (k : Int) :
    (runStoreOps EventStoreService.empty ops).getEventsAfter roomId k
        = ((runStoreOps EventStoreService.empty ops).getEvents roomId).filter
            (specAfterFilter k)
      ∧ (runStoreOps EventStoreService.empty ops).getEventsAfter roomId 0
        = (runStoreOps EventStoreService.empty ops).getEvents roomId := by
  have hmem := mem_seq_of_inv
    (storeInv_runStoreOps ops EventStoreService.empty storeInv_empty roomId)
  constructor
  · show ((runStoreOps EventStoreService.empty ops).getEvents roomId).filter
        (eventAfterFilter k) = _
    apply List.filter_congr
    intro e he
    obtain ⟨n, hn, h1, h2⟩ := hmem e he
    have hne : (n != 0) = true := by
      simp only [bne_iff_ne, ne_eq]
      omega
    simp [eventAfterFilter, specAfterFilter, hn, hne]
  · show ((runStoreOps EventStoreService.empty ops).getEvents roomId).filter
        (eventAfterFilter 0) = _
    rw [List.filter_eq_self]
    intro e he
    obtain ⟨n, hn, h1, h2⟩ := hmem e he
    simp only [eventAfterFilter, hn, Bool.and_eq_true, bne_iff_ne, ne_eq,
      decide_eq_true_eq]
    constructor
    · omega
    · omega

/-- C5: Stamping frame — the event returned by `addEvent` agrees with
the input on `payload` (the `type` discriminant and variant data),
`userId` and `roomId`; its `sequence` is exactly the value obtained from
the same call's `getNextSequence(roomId)` and its `timestamp` is the
admission time. -/
theorem addEvent_stamps_only_sequence_and_timestamp (s : EventStoreService)
    (roomId : String) (event : WhiteboardEvent) (now : Nat) :
    ((s.addEvent roomId event now).1).payload = event.payload ∧
      ((s.addEvent roomId event now).1).userId = event.userId ∧
      ((s.addEvent roomId event now).1).roomId = event.roomId ∧
      ((s.addEvent roomId event now).1).sequence
        = some (s.sequenceManager.getNextSequence roomId).1 ∧
      ((s.addEvent roomId event now).1).timestamp = now :=
  ⟨rfl, rfl, rfl, rfl, rfl⟩

/-- C6: Clear resets to fresh state — after `clearRoomEvents(roomId)`,
`getEvents(roomId)` is empty, `getCurrentSequence(roomId)` is `0`, the
next `addEvent` for that room is stamped with sequence `1`, and the
room's entries in both underlying maps equal those of a store that never
referenced the room. -/
theorem clearRoomEvents_resets_room (s : EventStoreService) (roomId : String)
    (event : WhiteboardEvent) (now : Nat) :
    (s.clearRoomEvents roomId).getEvents roomId = [] ∧
      (s.clearRoomEvents roomId).sequenceManager.getCurrentSequence roomId = 0 ∧
      (((s.clearRoomEvents roomId).addEvent roomId event now).1).sequence
        = some 1 ∧
      (s.clearRoomEvents roomId).events roomId
        = EventStoreService.empty.events roomId ∧
      (s.clearRoomEvents roomId).sequenceManager.sequences roomId
        = EventStoreService.empty.sequenceManager.sequences roomId := by
  refine ⟨?_, ?_, ?_, ?_, ?_⟩ <;>
    simp [EventStoreService.clearRoomEvents, EventStoreService.getEvents,
      EventStoreService.addEvent, EventStoreService.empty,
      SequenceManagerService.resetSequence,
      SequenceManagerService.getNextSequence,
      SequenceManagerService.getCurrentSequence, SequenceManagerService.empty]

/-- A trace containing no `addEvent` for `roomId` leaves the room's map
entry absent. -/
theorem events_none_of_no_add (roomId : String) (ops : List StoreOp) :
    ∀ s : EventStoreService, s.events roomId = none →
      (∀ op ∈ ops, op.isAddFor roomId = false) →
      (runStoreOps s ops).events roomId = none := by
  induction ops with
  | nil => intro s hs _; exact hs
  | cons op rest ih =>
    intro s hs hall
    have hop := hall op (List.mem_cons_self op rest)
    have hrest : ∀ o ∈ rest, o.isAddFor roomId = false :=
      fun o ho => hall o (List.mem_cons_of_mem op ho)
    cases op with
    | add r event now =>
      have hr : ¬roomId = r := by
        simp only [StoreOp.isAddFor, beq_eq_false_iff_ne, ne_eq] at hop
        exact fun hc => hop hc.symm
      refine ih _ ?_ hrest
      simp only [EventStoreService.addEvent, if_neg hr]
      exact hs
    | clear r =>
      refine ih _ ?_ hrest
      by_cases hr : roomId = r
      · simp [EventStoreService.clearRoomEvents, hr]
      · simp only [EventStoreService.clearRoomEvents, if_neg hr]
        exact hs

/-- C7: Not-found is empty, never an error — for a room no trace call
ever added an event to, `getEvents` returns the empty list and
`getEventsAfter` returns the empty list for every `k`.  (All store and
sequence-manager operations are total functions in this embedding:
none can fail on a structurally valid input.) -/
theorem unknown_room_returns_empty (ops : List StoreOp) (roomId : String)
    (k : Int) (h : ∀ op ∈ ops, op.isAddFor roomId = false) :
    (runStoreOps EventStoreService.empty ops).getEvents roomId = [] ∧
      (runStoreOps EventStoreService.empty ops).getEventsAfter roomId k = [] := by
  have hn := events_none_of_no_add roomId ops EventStoreService.empty rfl h
  constructor
  · simp [EventStoreService.getEvents, hn]
  · simp [EventStoreService.getEventsAfter, hn]

/-- Witness: the not-found theorem at a concrete trace touching only
other rooms. -/
theorem unknown_room_returns_empty_witness :
    (runStoreOps EventStoreService.empty
        [StoreOp.clear "room-1", StoreOp.add "room-2" sampleEvent 3]).getEvents
        "room-9" = []
      ∧ (runStoreOps EventStoreService.empty
          [StoreOp.clear "room-1",
            StoreOp.add "room-2" sampleEvent 3]).getEventsAfter "room-9" (-5)
        = [] :=
  unknown_room_returns_empty
    [StoreOp.clear "room-1", StoreOp.add "room-2" sampleEvent 3] "room-9" (-5)
    (by decide)

/-- C8: HTTP read-path shape — on any reachable store, the GET
/:roomId handler replies with the room's events (all of them, or only
those after `k` when the `after` query parameter is present), with
`count` equal to the length of that array, and with `lastSequence` the
sequence stamp of the array's last element, or `0` when the array is
empty. -/
theorem getRoomEvents_response_shape (ops : List StoreOp) (roomId : String)
    (after : Option Int) :
    (getRoomEventsHandler (runStoreOps EventStoreService.empty ops) roomId
          after).roomId = roomId ∧
      (getRoomEventsHandler (runStoreOps EventStoreService.empty ops) roomId
          after).events
        = (match after with
            | some k =>
              (runStoreOps EventStoreService.empty ops).getEventsAfter roomId k
            | none =>
              (runStoreOps EventStoreService.empty ops).getEvents roomId) ∧
      (getRoomEventsHandler (runStoreOps EventStoreService.empty ops) roomId
          after).count
        = (getRoomEventsHandler (runStoreOps EventStoreService.empty ops) roomId
            after).events.length ∧
      ((getRoomEventsHandler (runStoreOps EventStoreService.empty ops) roomId
            after).events = [] →
        (getRoomEventsHandler (runStoreOps EventStoreService.empty ops) roomId
            after).lastSequence = 0) ∧
      ∀ e,
        (getRoomEventsHandler (runStoreOps EventStoreService.empty ops) roomId
            after).events.getLast? = some e →
        e.sequence
          = some (getRoomEventsHandler (runStoreOps EventStoreService.empty ops)
              roomId after).lastSequence := by
  refine ⟨rfl, rfl, rfl, ?_, ?_⟩
  · intro h
    show ((getRoomEventsHandler (runStoreOps EventStoreService.empty ops) roomId
        after).events.getLast?.bind (fun e => e.sequence)).getD 0 = 0
    rw [h]
    rfl
  · intro e hlast
    have hmem : e ∈ (getRoomEventsHandler
        (runStoreOps EventStoreService.empty ops) roomId after).events :=
      List.mem_of_getLast?_eq_some hlast
    have hel : e ∈ (runStoreOps EventStoreService.empty ops).getEvents roomId := by
      cases after with
      | none => exact hmem
      | some k => exact (List.mem_filter.mp hmem).1
    obtain ⟨n, hn, h1, h2⟩ := mem_seq_of_inv
      (storeInv_runStoreOps ops EventStoreService.empty storeInv_empty roomId)
      e hel
    show e.sequence
      = some (((getRoomEventsHandler (runStoreOps EventStoreService.empty ops)
          roomId after).events.getLast?.bind (fun e => e.sequence)).getD 0)
    rw [hlast]
    simp [hn]

/-- Inserting into an empty log yields the one-element log (the binary
search degenerates, whatever position it returns). -/
theorem insertEvent_nil (e : WhiteboardEvent) : insertEvent [] e = [e] := by
  show List.take _ [] ++ e :: List.drop _ [] = [e]
  simp

/-- Witness: the read-path theorem at a concrete one-add trace, with
both implications discharged. -/
theorem getRoomEvents_response_shape_witness :
    ((getRoomEventsHandler
        (runStoreOps EventStoreService.empty [StoreOp.add "room-1" sampleEvent 5])
        "room-1" none).events.getLast?
      = some ((EventStoreService.empty.addEvent "room-1" sampleEvent 5).1))
    ∧ ((EventStoreService.empty.addEvent "room-1" sampleEvent 5).1).sequence
      = some ((getRoomEventsHandler
          (runStoreOps EventStoreService.empty
            [StoreOp.add "room-1" sampleEvent 5]) "room-1" none).lastSequence)
    ∧ ((getRoomEventsHandler
        (runStoreOps EventStoreService.empty []) "room-2" none).events = [])
    ∧ ((getRoomEventsHandler
        (runStoreOps EventStoreService.empty []) "room-2" none).lastSequence = 0) := by
  have hrun : (getRoomEventsHandler
      (runStoreOps EventStoreService.empty [StoreOp.add "room-1" sampleEvent 5])
      "room-1" none).events
      = [(EventStoreService.empty.addEvent "room-1" sampleEvent 5).1] := by
    show (EventStoreService.empty.addEvent "room-1" sampleEvent 5).2.getEvents
        "room-1" = _
    simp [EventStoreService.addEvent, EventStoreService.getEvents,
      EventStoreService.empty, SequenceManagerService.empty, insertEvent_nil]
  refine ⟨?_, ?_, rfl, ?_⟩
  · rw [hrun]; rfl
  · exact (getRoomEvents_response_shape [StoreOp.add "room-1" sampleEvent 5]
      "room-1" none).2.2.2.2 _ (by rw [hrun]; rfl)
  · exact (getRoomEvents_response_shape [] "room-2" none).2.2.2.1 rfl

/-- The fresh presence store satisfies the containment invariant. -/
theorem presenceInv_empty : presenceInv PresenceStore.empty := by
  intro u h
  simp [PresenceStore.empty] at h

/-- `addUser` preserves the containment invariant (it never touches
cursors and only ever adds to the active set). -/
theorem presenceInv_addUser (s : PresenceStore) (userId userName : String)
    (color : Option String) (now : Nat) (h : presenceInv s) :
    presenceInv (s.addUser userId userName color now) := by
  intro u
  unfold PresenceStore.addUser
  cases ha : s.activeUsers userId with
  | some p => exact h u
  | none =>
    intro hc
    by_cases hu : u = userId
    · simp [hu]
    · simp only [if_neg hu]
      exact h u hc

/-- `removeUser` preserves the containment invariant (it deletes from
both maps). -/
theorem presenceInv_removeUser (s : PresenceStore) (userId : String)
    (h : presenceInv s) : presenceInv (s.removeUser userId) := by
  intro u
  simp only [PresenceStore.removeUser]
  by_cases hu : u = userId
  · simp [hu]
  · simp only [if_neg hu]
    exact h u

/-- `updateCursor` preserves the containment invariant (it only writes
a cursor for an already-active user). -/
theorem presenceInv_updateCursor (s : PresenceStore) (userId : String)
    (x y : Int) (now : Nat) (h : presenceInv s) :
    presenceInv (s.updateCursor userId x y now) := by
  intro u
  unfold PresenceStore.updateCursor
  cases ha : s.activeUsers userId with
  | none => exact h u
  | some p =>
    intro hc
    by_cases hu : u = userId
    · subst hu
      simp [ha]
    · simp only [if_neg hu] at hc
      exact h u hc

/-- Any trace of presence-store calls preserves the containment
invariant. -/
theorem presenceInv_runPresenceOps (ops : List PresenceOp) :
    ∀ s : PresenceStore, presenceInv s → presenceInv (runPresenceOps s ops) := by
  induction ops with
  | nil => intro s h; exact h
  | cons op rest ih =>
    intro s h
    cases op with
    | addUser userId userName color now =>
      exact ih _ (presenceInv_addUser s userId userName color now h)
    | removeUser userId =>
      exact ih _ (presenceInv_removeUser s userId h)
    | updateCursor userId x y now =>
      exact ih _ (presenceInv_updateCursor s userId x y now h)
    | clearAll =>
      exact ih _ presenceInv_empty

/-- C10: Implicit cursor-containment invariant — after every trace of
presence operations the domain of `userCursors` is contained in the
domain of `activeUsers`; moreover `updateCursor` is a no-op for a
non-active user, `addUser` never creates a cursor and is a no-op
(preserving the existing entry) for an already-active user, `removeUser`
deletes both entries of the removed user, and `clearAll` empties both
maps. -/
theorem presence_cursor_containment :
    (∀ (ops : List PresenceOp) (u : String),
        ((runPresenceOps PresenceStore.empty ops).userCursors u).isSome = true →
        ((runPresenceOps PresenceStore.empty ops).activeUsers u).isSome = true) ∧
      (∀ (s : PresenceStore) (userId : String) (x y : Int) (now : Nat),
        s.activeUsers userId = none → s.updateCursor userId x y now = s) ∧
      (∀ (s : PresenceStore) (userId userName : String) (color : Option String)
          (now : Nat),
        (s.addUser userId userName color now).userCursors = s.userCursors ∧
          ∀ p, s.activeUsers userId = some p →
            s.addUser userId userName color now = s) ∧
      (∀ (s : PresenceStore) (userId : String),
        (s.removeUser userId).activeUsers userId = none ∧
          (s.removeUser userId).userCursors userId = none) ∧
      ∀ s : PresenceStore,
        s.clearAll.activeUsers = PresenceStore.empty.activeUsers ∧
          s.clearAll.userCursors = PresenceStore.empty.userCursors := by
  refine ⟨?_, ?_, ?_, ?_, ?_⟩
  · intro ops u
    exact presenceInv_runPresenceOps ops PresenceStore.empty presenceInv_empty u
  · intro s userId x y now h
    unfold PresenceStore.updateCursor
    rw [h]
  · intro s userId userName color now
    constructor
    · unfold PresenceStore.addUser
      cases ha : s.activeUsers userId <;> rfl
    · intro p hp
      unfold PresenceStore.addUser
      rw [hp]
  · intro s userId
    constructor <;> simp [PresenceStore.removeUser]
  · intro s
    exact ⟨rfl, rfl⟩

/-- Witness: the no-op branches of the containment theorem at concrete
inputs — updating a cursor for a user absent from a fresh store changes
nothing, and re-adding an active user changes nothing. -/
theorem presence_cursor_containment_witness :
    PresenceStore.empty.updateCursor "user-1" 3 4 7 = PresenceStore.empty ∧
      (PresenceStore.empty.addUser "user-1" "Alice" none 0).addUser "user-1"
          "Bob" none 9
        = PresenceStore.empty.addUser "user-1" "Alice" none 0 := by
  constructor
  · exact presence_cursor_containment.2.1 PresenceStore.empty "user-1" 3 4 7 rfl
  · exact (presence_cursor_containment.2.2.1
      (PresenceStore.empty.addUser "user-1" "Alice" none 0) "user-1" "Bob"
      none 9).2 _ rfl

/-- C9: Idempotent leave — on any reachable presence store, removing a
user absent from the active-users map leaves the active-users and
cursor maps unchanged (no error is possible: the operation is total),
and removing any user never modifies another user's entries. -/
theorem removeUser_idempotent_frame (ops : List PresenceOp)
    (userId other : String) :
    ((runPresenceOps PresenceStore.empty ops).activeUsers userId = none →
        ((runPresenceOps PresenceStore.empty ops).removeUser userId).activeUsers
            = (runPresenceOps PresenceStore.empty ops).activeUsers
          ∧ ((runPresenceOps PresenceStore.empty ops).removeUser
                userId).userCursors
            = (runPresenceOps PresenceStore.empty ops).userCursors) ∧
      (other ≠ userId →
        ((runPresenceOps PresenceStore.empty ops).removeUser userId).activeUsers
              other
            = (runPresenceOps PresenceStore.empty ops).activeUsers other
          ∧ ((runPresenceOps PresenceStore.empty ops).removeUser
                userId).userCursors other
            = (runPresenceOps PresenceStore.empty ops).userCursors other) := by
  have hinv : presenceInv (runPresenceOps PresenceStore.empty ops) :=
    presenceInv_runPresenceOps ops PresenceStore.empty presenceInv_empty
  constructor
  · intro h
    have hcur : (runPresenceOps PresenceStore.empty ops).userCursors userId
        = none := by
      cases hc : (runPresenceOps PresenceStore.empty ops).userCursors userId with
      | none => rfl
      | some c =>
        have hsome := hinv userId (by rw [hc]; rfl)
        rw [h] at hsome
        simp at hsome
    constructor
    · funext u
      simp only [PresenceStore.removeUser]
      by_cases hu : u = userId
      · subst hu
        rw [if_pos rfl, h]
      · rw [if_neg hu]
    · funext u
      simp only [PresenceStore.removeUser]
      by_cases hu : u = userId
      · subst hu
        rw [if_pos rfl, hcur]
      · rw [if_neg hu]
  · intro hne
    constructor <;> (simp only [PresenceStore.removeUser]; rw [if_neg hne])

/-- Witness: the idempotent-leave theorem on a store holding only
`"user-2"`, removing the absent `"user-1"`. -/
theorem removeUser_idempotent_frame_witness :
    (((runPresenceOps PresenceStore.empty
          [PresenceOp.addUser "user-2" "Bob" none 0]).removeUser
          "user-1").activeUsers
        = (runPresenceOps PresenceStore.empty
            [PresenceOp.addUser "user-2" "Bob" none 0]).activeUsers)
      ∧ (((runPresenceOps PresenceStore.empty
            [PresenceOp.addUser "user-2" "Bob" none 0]).removeUser
            "user-1").userCursors "user-2"
          = (runPresenceOps PresenceStore.empty
              [PresenceOp.addUser "user-2" "Bob" none 0]).userCursors
              "user-2") := by
  constructor
  · exact ((removeUser_idempotent_frame
      [PresenceOp.addUser "user-2" "Bob" none 0] "user-1" "user-2").1 rfl).1
  · exact ((removeUser_idempotent_frame
      [PresenceOp.addUser "user-2" "Bob" none 0] "user-1" "user-2").2
      (by decide)).2
